import Mathlib

set_option maxHeartbeats 1000000

/-!
Verification of the JSON path extractor
(`src/CommsIO/src/commlinkio/core/json_extractor.py`).

The query string is modelled as a `List Char`; the tokenizer
(`_parse_query`, `_parse_bracket`) is embedded as character-list
consumers that return the token together with the unconsumed suffix,
mirroring the index-based scanning of the source.  Documents are an
inductive JSON tree; the resolver (`_resolve_token`,
`extract_json_path`) and the batch API (`extract_json_paths`) follow
the source line by line.  Python `None` and JSON `null` are the same
value in the source, so both are `Json.null` here.
-/

namespace JsonExtractor

/-- JSON documents as produced by `json.load`: objects are ordered
association lists (Python dicts preserve insertion order). -/
inductive Json where
  | null : Json
  | bool (b : Bool) : Json
  | num (n : Int) : Json
  | str (s : List Char) : Json
  | arr (elems : List Json) : Json
  | obj (fields : List (List Char × Json)) : Json
deriving Repr

/-- Path tokens: `_PathToken` with kind `field`, `index` or `wildcard`. -/
inductive PathToken where
  | field (name : List Char) : PathToken
  | index (i : Int) : PathToken
  | wildcard : PathToken
deriving DecidableEq, Repr

/-- Value of a digit string, as Python `int` on a string of digits. -/
def digitsVal (ds : List Char) : Nat :=
  ds.foldl (fun a c => a * 10 + (c.toNat - ('0').toNat)) 0

/-- The quoted-key loop of `_parse_bracket` (source lines 34-53): consume
characters until the matching unescaped quote, honouring single-character
backslash escapes; the key must be followed by a closing bracket. -/
def parseQuoted (quote : Char) (acc : List Char) : List Char → Except String (PathToken × List Char)
  | [] => .error "Unterminated quoted bracket key."
  | c :: rest =>
    if c = '\\' then
      match rest with
      | [] => .error "Invalid escape in bracket key."
      | e :: rest2 => parseQuoted quote (acc ++ [e]) rest2
    else if c = quote then
      match rest with
      | ']' :: rest2 => .ok (PathToken.field acc, rest2)
      | _ => .error "Quoted bracket key must end with bracket."
    else parseQuoted quote (acc ++ [c]) rest

/-- The numeric tail of `_parse_bracket` (source lines 55-64): an optional
sign has already been consumed (`neg`), then one or more digits, then `]`. -/
def parseIndexBody (neg : Bool) (cs : List Char) : Except String (PathToken × List Char) :=
  let ds := cs.takeWhile Char.isDigit
  let rest := cs.dropWhile Char.isDigit
  if ds = [] then .error "Bracket expression must be an index, wildcard, or quoted key."
  else
    match rest with
    | ']' :: rest2 =>
      .ok (PathToken.index (if neg then -(digitsVal ds : Int) else (digitsVal ds : Int)), rest2)
    | _ => .error "Array index bracket must end with bracket."

/-- `_parse_bracket` (source lines 24-64), applied to the characters after
the opening `[`; returns the token and the unconsumed suffix. -/
def parseBracket (cs : List Char) : Except String (PathToken × List Char) :=
  match cs with
  | [] => .error "Unterminated bracket expression."
  | c :: rest =>
    if c = '*' then
      match rest with
      | ']' :: rest2 => .ok (PathToken.wildcard, rest2)
      | _ => .error "Wildcard bracket must be star."
    else if c = '\'' ∨ c = '"' then
      parseQuoted c [] rest
    else if c = '-' then
      parseIndexBody true rest
    else
      parseIndexBody false cs

/-- Characters allowed inside a bare field name: everything except the
separators `.` and `[` (source line 103). -/
def fieldChar (c : Char) : Bool := !(c == '.' || c == '[')

theorem length_dropWhile_le (p : Char → Bool) (l : List Char) :
    (l.dropWhile p).length ≤ l.length := by
  induction l with
  | nil => simp
  | cons c rest ih =>
    by_cases h : p c
    · simp [List.dropWhile, h]; omega
    · simp [List.dropWhile, h]

theorem parseQuoted_length (quote : Char) (acc cs : List Char) :
    ∀ (t : PathToken) (r : List Char), parseQuoted quote acc cs = .ok (t, r) → r.length ≤ cs.length := by
  induction acc, cs using parseQuoted.induct quote with
  | case1 acc =>
    intro t r h
    simp [parseQuoted] at h
  | case2 acc =>
    intro t r h
    simp [parseQuoted] at h
  | case3 acc e rest2 ih =>
    intro t r h
    simp only [parseQuoted, if_pos rfl] at h
    have := ih t r h
    simp only [List.length_cons]
    omega
  | case4 acc rest2 hq =>
    intro t r h
    rw [parseQuoted.eq_def] at h
    simp only [if_neg hq, if_pos rfl] at h
    split at h
    next =>
      simp only [Except.ok.injEq, Prod.mk.injEq] at h
      obtain ⟨-, hr⟩ := h
      subst hr
      simp only [List.length_cons]
      omega
    next hfalse => exact absurd trivial hfalse
  | case5 acc rest2 hne hq =>
    intro t r h
    rw [parseQuoted.eq_def] at h
    simp only [if_neg hq, if_pos rfl] at h
    split at h
    next => exact Except.noConfusion h
    next hfalse => exact absurd trivial hfalse
  | case6 acc e rest2 he hq ih =>
    intro t r h
    rw [parseQuoted.eq_def] at h
    simp only [if_neg he, if_neg hq] at h
    have := ih t r h
    simp only [List.length_cons]
    omega

theorem parseIndexBody_length (neg : Bool) (cs : List Char) (t : PathToken) (r : List Char)
    (h : parseIndexBody neg cs = .ok (t, r)) : r.length ≤ cs.length := by
  simp only [parseIndexBody] at h
  split at h
  · exact absurd h (by simp)
  · split at h
    · rename_i rest2 heq
      simp only [Except.ok.injEq, Prod.mk.injEq] at h
      obtain ⟨-, h2⟩ := h
      subst h2
      have hlen := length_dropWhile_le Char.isDigit cs
      rw [heq] at hlen
      simp only [List.length_cons] at hlen
      omega
    · exact absurd h (by simp)

theorem parseBracket_length (cs : List Char) (t : PathToken) (r : List Char)
    (h : parseBracket cs = .ok (t, r)) : r.length ≤ cs.length := by
  cases cs with
  | nil => simp [parseBracket] at h
  | cons c rest =>
    simp only [parseBracket] at h
    split at h
    · -- wildcard bracket
      split at h
      · simp only [Except.ok.injEq, Prod.mk.injEq] at h
        obtain ⟨-, h2⟩ := h
        subst h2
        simp only [List.length_cons]
        omega
      · exact absurd h (by simp)
    · split at h
      · -- quoted key
        have := parseQuoted_length c [] rest t r h
        simp only [List.length_cons]
        omega
      · split at h
        · -- negative index
          have := parseIndexBody_length true rest t r h
          simp only [List.length_cons]
          omega
        · -- non-negative index
          exact parseIndexBody_length false (c :: rest) t r h

/-- The main scanning loop of `_parse_query` (source lines 83-110), after
stripping and root-marker removal.  `atStart` is true exactly at the first
character (the `i == 0` test of the source). -/
def parseLoop : List Char → Bool → Except String (List PathToken)
  | [], _ => .ok []
  | c :: rest, atStart =>
    if hdot : c = '.' then
      if atStart ∨ rest = [] ∨ rest.head? = some '.' then
        .error "Invalid dot placement in query."
      else parseLoop rest false
    else if hbr : c = '[' then
      match hpb : parseBracket rest with
      | .error e => .error e
      | .ok (t, rest2) => (parseLoop rest2 false).map (fun ts => t :: ts)
    else if hstar : c = '*' then
      (parseLoop rest false).map (fun ts => PathToken.wildcard :: ts)
    else
      let name := (c :: rest).takeWhile fieldChar
      let rest3 := (c :: rest).dropWhile fieldChar
      if name = [] then .error "Invalid field token in query."
      else (parseLoop rest3 false).map (fun ts => PathToken.field name :: ts)
termination_by cs _ => cs.length
decreasing_by
  · simp only [List.length_cons]; omega
  · have := parseBracket_length rest t rest2 hpb
    simp only [List.length_cons]; omega
  · simp only [List.length_cons]; omega
  · have hfc : fieldChar c = true := by
      simp only [fieldChar, Bool.not_eq_true', Bool.or_eq_false_iff, beq_eq_false_iff_ne]
      exact ⟨hdot, hbr⟩
    simp only [List.dropWhile_cons, hfc, if_true, List.length_cons]
    have := length_dropWhile_le fieldChar rest
    omega

/-- Python `str.strip()`: whitespace removed from both ends. -/
def pyStrip (cs : List Char) : List Char :=
  ((cs.dropWhile Char.isWhitespace).reverse.dropWhile Char.isWhitespace).reverse

/-- Root-marker removal (source lines 72-75): a leading `$`, then an
optional `.`, are dropped. -/
def stripRoot (cs : List Char) : List Char :=
  match cs with
  | '$' :: '.' :: rest => rest
  | '$' :: rest => rest
  | _ => cs

/-- `_parse_query` (source lines 67-110): tokenize a query string, or fail
with a `JsonPathError` message. -/
def _parse_query (query : List Char) : Except String (List PathToken) :=
  let raw := pyStrip query
  if raw = [] then .error "Query cannot be empty."
  else
    let raw2 := stripRoot raw
    if raw2 = [] then .ok []
    else parseLoop raw2 true

/-- First-match association lookup, the semantics of `key in dict` /
`dict[key]` for a JSON object. -/
def lookupField (name : List Char) : List (List Char × Json) → Option Json
  | [] => none
  | (k, v) :: rest => if k = name then some v else lookupField name rest

/-- `_resolve_token` (source lines 113-136): apply one token to one node. -/
def _resolve_token (node : Json) (t : PathToken) : List Json :=
  match t with
  | .field name =>
    match node with
    | .obj fields =>
      match lookupField name fields with
      | some v => [v]
      | none => []
    | _ => []
  | .index i =>
    match node with
    | .arr elems =>
      let idx : Int := if i < 0 then i + elems.length else i
      if h : 0 ≤ idx ∧ idx < (elems.length : Int) then
        [elems.get ⟨idx.toNat, by omega⟩]
      else []
    | _ => []
  | .wildcard =>
    match node with
    | .obj fields => fields.map Prod.snd
    | .arr elems => elems
    | _ => []

/-- One frontier step of `extract_json_path` (source lines 153-155): the
concatenation of the per-node emissions, in node order. -/
def resolveStep (nodes : List Json) (t : PathToken) : List Json :=
  match nodes with
  | [] => []
  | n :: rest => _resolve_token n t ++ resolveStep rest t

/-- The token loop of `extract_json_path` (source lines 151-159), with the
short-circuit `if not nodes: break`. -/
def resolveAll : List Json → List PathToken → List Json
  | nodes, [] => nodes
  | nodes, t :: ts =>
    match resolveStep nodes t with
    | [] => []
    | m :: rest => resolveAll (m :: rest) ts

/-- `extract_json_path` (source lines 139-159): tokenize then resolve. -/
def extract_json_path (data : Json) (query : List Char) : Except String (List Json) :=
  (_parse_query query).map (fun tokens => resolveAll [data] tokens)

/-- A value stored in the mapping returned by `extract_json_paths`: in
first-match mode a single value (with `Json.null` for Python `None`), in
all-matches mode the full list. -/
inductive ExtractValue where
  | single (v : Json) : ExtractValue
  | many (vs : List Json) : ExtractValue
deriving Repr

/-- Python dict assignment `output[query] = v`: overwrite in place when the
key exists, append otherwise (insertion order preserved). -/
def setEntry (out : List (List Char × ExtractValue)) (key : List Char) (v : ExtractValue) :
    List (List Char × ExtractValue) :=
  match out with
  | [] => [(key, v)]
  | (k, w) :: rest => if k = key then (k, v) :: rest else (k, w) :: setEntry rest key v

/-- The entry stored for one query (source line 168):
`matches[0] if first and matches else (None if first else matches)`. -/
def entryValue (first : Bool) (ms : List Json) : ExtractValue :=
  if first then
    match ms with
    | [] => ExtractValue.single Json.null
    | m :: _ => ExtractValue.single m
  else ExtractValue.many ms

/-- The query loop of `extract_json_paths` (source lines 165-168); a parse
error of any query aborts the whole call, as in the source. -/
def extractPathsGo (data : Json) (first : Bool)
    (out : List (List Char × ExtractValue)) :
    List (List Char) → Except String (List (List Char × ExtractValue))
  | [] => .ok out
  | q :: qs =>
    match extract_json_path data q with
    | .error e => .error e
    | .ok ms => extractPathsGo data first (setEntry out q (entryValue first ms)) qs

/-- `extract_json_paths` (source lines 162-169). -/
def extract_json_paths (data : Json) (queries : List (List Char)) (first : Bool) :
    Except String (List (List Char × ExtractValue)) :=
  extractPathsGo data first [] queries

/-- Dict lookup in the output mapping of `extract_json_paths`. -/
def lookupEntry (key : List Char) : List (List Char × ExtractValue) → Option ExtractValue
  | [] => none
  | (k, v) :: rest => if k = key then some v else lookupEntry key rest

/-- A token that is neither a wildcard nor a negative index (claim C2). -/
def noWildNegTok : PathToken → Bool
  | .field _ => true
  | .index i => decide (0 ≤ i)
  | .wildcard => false

/-- Direct structural lookup along a token path, in the words of the spec:
successive dict-key / in-bounds array-index access starting from the
document, yielding at most one value. -/
def directLookup (d : Json) : List PathToken → Option Json
  | [] => some d
  | .field name :: ts =>
    match d with
    | .obj fields =>
      match lookupField name fields with
      | some v => directLookup v ts
      | none => none
    | _ => none
  | .index i :: ts =>
    match d with
    | .arr elems =>
      if h : 0 ≤ i ∧ i < (elems.length : Int) then directLookup (elems.get ⟨i.toNat, by omega⟩) ts
      else none
    | _ => none
  | .wildcard :: _ => none

/-- The resolver without the short-circuit, in the words of the spec: every
remaining token is evaluated even after the frontier becomes empty. -/
def resolveAllFull : List Json → List PathToken → List Json
  | nodes, [] => nodes
  | nodes, t :: ts => resolveAllFull (resolveStep nodes t) ts

/-- The values under key `key` of those list elements that are objects
containing that key, in element order (claim C7). -/
def idValues (key : List Char) : List Json → List Json
  | [] => []
  | e :: rest =>
    (match e with
     | .obj fields =>
       match lookupField key fields with
       | some v => [v]
       | none => []
     | _ => []) ++ idValues key rest

/-- Whether a list element is an object containing key `key` (claim C7). -/
def hasKeyObj (key : List Char) (e : Json) : Bool :=
  match e with
  | .obj fields => (lookupField key fields).isSome
  | _ => false

theorem takeWhile_append_of_all (p : Char → Bool) (A B : List Char)
    (hA : ∀ c ∈ A, p c = true) (hB : ∀ x, B.head? = some x → p x = false) :
    (A ++ B).takeWhile p = A := by
  induction A with
  | nil =>
    cases B with
    | nil => rfl
    | cons x B2 =>
      simp only [List.nil_append, List.takeWhile_cons, hB x rfl]
      simp
  | cons a A2 ih =>
    have ha : p a = true := hA a (by simp)
    simp only [List.cons_append, List.takeWhile_cons, ha]
    rw [ih (fun c hc => hA c (by simp [hc]))]
    simp

theorem dropWhile_append_of_all (p : Char → Bool) (A B : List Char)
    (hA : ∀ c ∈ A, p c = true) (hB : ∀ x, B.head? = some x → p x = false) :
    (A ++ B).dropWhile p = B := by
  induction A with
  | nil =>
    cases B with
    | nil => rfl
    | cons x B2 =>
      simp only [List.nil_append, List.dropWhile_cons, hB x rfl]
      simp
  | cons a A2 ih =>
    have ha : p a = true := hA a (by simp)
    simp only [List.cons_append, List.dropWhile_cons, ha]
    simp only [if_true]
    exact ih (fun c hc => hA c (by simp [hc]))

theorem dropWhile_append_cons_of_neg (p : Char → Bool) (A B : List Char) (x : Char)
    (hx : p x = false) :
    (A ++ x :: B).dropWhile p = A.dropWhile p ++ x :: B := by
  induction A with
  | nil => simp [List.dropWhile_cons, hx]
  | cons a A2 ih =>
    by_cases ha : p a
    · simp only [List.cons_append, List.dropWhile_cons, ha, if_true, ih]
    · simp only [List.cons_append, List.dropWhile_cons, ha, Bool.false_eq_true, if_false]

theorem dropWhile_eq_self_of_all (p : Char → Bool) (l : List Char)
    (h : ∀ c ∈ l, p c = false) : l.dropWhile p = l := by
  cases l with
  | nil => rfl
  | cons c rest => simp [List.dropWhile_cons, h c (by simp)]

theorem pyStrip_no_ws (l : List Char) (h : ∀ c ∈ l, c.isWhitespace = false) :
    pyStrip l = l := by
  unfold pyStrip
  rw [dropWhile_eq_self_of_all _ _ h]
  rw [dropWhile_eq_self_of_all _ _ (fun c hc => h c (by simpa using hc))]
  simp

theorem stripRoot_cons_of_ne (c : Char) (l : List Char) (hc : c ≠ '$') :
    stripRoot (c :: l) = c :: l := by
  rw [stripRoot.eq_def]
  split
  next heq => rw [List.cons.injEq] at heq; exact absurd heq.1 hc
  next heq => rw [List.cons.injEq] at heq; exact absurd heq.1 hc
  next => rfl

theorem digit_not_ws (c : Char) (h : c.isDigit = true) : c.isWhitespace = false := by
  by_contra hw
  simp only [Bool.not_eq_false] at hw
  simp only [Char.isWhitespace, decide_eq_true_eq, Bool.or_eq_true] at hw
  rcases hw with ((hc | hc) | hc) | hc <;> subst hc <;> exact absurd h (by decide)

theorem parseLoop_dotdot (t : List Char) :
    parseLoop ('.' :: '.' :: t) false = .error "Invalid dot placement in query." := by
  simp [parseLoop]

theorem parseLoop_field_seg (s rest : List Char) (hne : s ≠ [])
    (hs : ∀ c ∈ s, fieldChar c = true ∧ c ≠ '*')
    (hrest : ∀ x, rest.head? = some x → fieldChar x = false) (b : Bool) :
    parseLoop (s ++ rest) b = (parseLoop rest false).map (fun ts => PathToken.field s :: ts) := by
  cases s with
  | nil => exact absurd rfl hne
  | cons c s2 =>
    obtain ⟨hfc, hstar⟩ := hs c (by simp)
    have hdot : ¬c = '.' := by
      intro hh; subst hh; simp [fieldChar] at hfc
    have hbr : ¬c = '[' := by
      intro hh; subst hh; simp [fieldChar] at hfc
    have ht := takeWhile_append_of_all fieldChar (c :: s2) rest (fun x hx => (hs x hx).1) hrest
    have hd := dropWhile_append_of_all fieldChar (c :: s2) rest (fun x hx => (hs x hx).1) hrest
    rw [List.cons_append] at ht hd
    rw [List.cons_append]
    simp only [parseLoop, dif_neg hdot, dif_neg hbr, dif_neg hstar, ht, hd]
    rw [if_neg (by simp)]

theorem parseLoop_bracket (inner rest2 : List Char) (t0 : PathToken)
    (h : parseBracket inner = .ok (t0, rest2)) (b : Bool) :
    parseLoop ('[' :: inner) b = (parseLoop rest2 false).map (fun ts => t0 :: ts) := by
  simp only [parseLoop, dif_neg (by decide : ¬('[' : Char) = '.')]
  split
  · split
    · rename_i hpb
      rw [h] at hpb
      exact Except.noConfusion hpb
    · rename_i t1 r1 hpb
      rw [h] at hpb
      simp only [Except.ok.injEq, Prod.mk.injEq] at hpb
      rw [hpb.1, hpb.2]
  · rename_i hfalse
    exact absurd trivial hfalse

theorem parseBracket_digits (ds rest : List Char) (hne : ds ≠ [])
    (hds : ∀ c ∈ ds, c.isDigit = true) :
    parseBracket (ds ++ ']' :: rest) = .ok (PathToken.index (digitsVal ds), rest) := by
  cases ds with
  | nil => exact absurd rfl hne
  | cons c ds2 =>
    have hc : c.isDigit = true := hds c (by simp)
    have hstar : ¬c = '*' := by intro hh; subst hh; exact absurd hc (by decide)
    have hq : ¬(c = '\'' ∨ c = '"') := by
      rintro (hh | hh) <;> subst hh <;> exact absurd hc (by decide)
    have hm : ¬c = '-' := by intro hh; subst hh; exact absurd hc (by decide)
    have ht := takeWhile_append_of_all Char.isDigit (c :: ds2) (']' :: rest) hds
      (by intro x hx; simp at hx; subst hx; decide)
    have hd := dropWhile_append_of_all Char.isDigit (c :: ds2) (']' :: rest) hds
      (by intro x hx; simp at hx; subst hx; decide)
    rw [List.cons_append] at ht hd
    rw [List.cons_append]
    simp only [parseBracket, if_neg hstar, if_neg hq, if_neg hm, parseIndexBody, ht, hd]
    rw [if_neg (by simp)]
    simp

theorem parseLoop_nil (b : Bool) : parseLoop [] b = .ok [] := by
  simp [parseLoop]

theorem parseLoop_cons_dot (rest : List Char) (b : Bool) :
    parseLoop ('.' :: rest) b =
      if b ∨ rest = [] ∨ rest.head? = some '.' then .error "Invalid dot placement in query."
      else parseLoop rest false := by
  simp only [parseLoop, dif_pos rfl]
  rcases b with - | -
  · simp
  · simp

theorem parseLoop_cons_star (rest : List Char) (b : Bool) :
    parseLoop ('*' :: rest) b = (parseLoop rest false).map (fun ts => PathToken.wildcard :: ts) := by
  simp only [parseLoop,
    dif_neg (by decide : ¬('*' : Char) = '.'),
    dif_neg (by decide : ¬('*' : Char) = '['), dif_pos rfl]
  simp

theorem parseLoop_cons_field (c : Char) (rest : List Char) (b : Bool)
    (h1 : ¬c = '.') (h2 : ¬c = '[') (h3 : ¬c = '*') :
    parseLoop (c :: rest) b =
      if (c :: rest).takeWhile fieldChar = [] then .error "Invalid field token in query."
      else (parseLoop ((c :: rest).dropWhile fieldChar) false).map
        (fun ts => PathToken.field ((c :: rest).takeWhile fieldChar) :: ts) := by
  simp only [parseLoop, dif_neg h1, dif_neg h2, dif_neg h3]

theorem parseLoop_bracket_error (inner : List Char) (e : String)
    (h : parseBracket inner = .error e) (b : Bool) :
    parseLoop ('[' :: inner) b = .error e := by
  simp only [parseLoop, dif_neg (by decide : ¬('[' : Char) = '.')]
  split
  · split
    · rename_i hpb
      rw [h] at hpb
      simp only [Except.error.injEq] at hpb
      rw [hpb]
    · rename_i t1 r1 hpb
      rw [h] at hpb
      exact Except.noConfusion hpb
  · rename_i hfalse
    exact absurd trivial hfalse

theorem parseLoop_cons_bracket (inner : List Char) (b : Bool) :
    parseLoop ('[' :: inner) b =
      match parseBracket inner with
      | .error e => .error e
      | .ok (t, rest2) => (parseLoop rest2 false).map (fun ts => t :: ts) := by
  cases hpb : parseBracket inner with
  | error e =>
    rw [parseLoop_bracket_error inner e hpb b]
  | ok pr =>
    obtain ⟨t, r2⟩ := pr
    rw [parseLoop_bracket inner r2 t hpb b]

theorem mem_of_mem_dropWhile (p : Char → Bool) (l : List Char) (x : Char)
    (h : x ∈ l.dropWhile p) : x ∈ l := by
  induction l with
  | nil => simp at h
  | cons c rest ih =>
    rw [List.dropWhile_cons] at h
    by_cases hc : p c = true
    · simp only [hc, if_true] at h
      exact List.mem_cons_of_mem c (ih h)
    · simp only [hc, if_false] at h
      exact h

theorem pyStrip_dotdot_all (s t : List Char) :
    pyStrip (s ++ '.' :: '.' :: t)
      = s.dropWhile Char.isWhitespace
          ++ '.' :: '.' :: (t.reverse.dropWhile Char.isWhitespace).reverse := by
  unfold pyStrip
  rw [dropWhile_append_cons_of_neg Char.isWhitespace s ('.' :: t) '.' (by decide)]
  rw [show (s.dropWhile Char.isWhitespace ++ '.' :: '.' :: t).reverse
      = t.reverse ++ '.' :: '.' :: (s.dropWhile Char.isWhitespace).reverse from by
    rw [show ('.' :: '.' :: t) = ['.', '.'] ++ t from rfl]
    simp [List.reverse_append]]
  rw [dropWhile_append_cons_of_neg Char.isWhitespace t.reverse
    ('.' :: (s.dropWhile Char.isWhitespace).reverse) '.' (by decide)]
  simp [List.reverse_append]

theorem stripRoot_dollar_cons_of_ne (d : Char) (x : List Char) (hd : ¬d = '.') :
    stripRoot ('$' :: d :: x) = d :: x := by
  rw [stripRoot.eq_def]
  split
  next heq =>
    simp only [List.cons.injEq] at heq
    exact absurd heq.2.1 hd
  next heq =>
    simp only [List.cons.injEq] at heq
    exact heq.2.symm
  next hne1 hne2 => simp_all

theorem parseLoop_doubled_dot (n : Nat) :
    ∀ s : List Char, s.length ≤ n → '[' ∉ s → ∀ (b : Bool) (t : List Char),
      ∃ e, parseLoop (s ++ '.' :: '.' :: t) b = .error e := by
  induction n with
  | zero =>
    intro s hlen hmem b t
    have hs : s = [] := by
      cases s with
      | nil => rfl
      | cons c s2 => simp at hlen
    subst hs
    refine ⟨"Invalid dot placement in query.", ?_⟩
    rw [List.nil_append, parseLoop_cons_dot, if_pos (by simp)]
  | succ n ih =>
    intro s hlen hmem b t
    cases s with
    | nil =>
      refine ⟨"Invalid dot placement in query.", ?_⟩
      rw [List.nil_append, parseLoop_cons_dot, if_pos (by simp)]
    | cons c s2 =>
      have hmem2 : '[' ∉ s2 := fun hx => hmem (by simp [hx])
      have hcbr : ¬c = '[' := fun hc => hmem (by simp [hc])
      have hlen2 : s2.length ≤ n := by
        simp only [List.length_cons] at hlen
        omega
      by_cases hdot : c = '.'
      · subst hdot
        rw [List.cons_append, parseLoop_cons_dot]
        by_cases hcond : b ∨ s2 ++ '.' :: '.' :: t = []
            ∨ (s2 ++ '.' :: '.' :: t).head? = some '.'
        · exact ⟨_, by rw [if_pos hcond]⟩
        · rw [if_neg hcond]
          exact ih s2 hlen2 hmem2 false t
      · by_cases hstar : c = '*'
        · subst hstar
          obtain ⟨e, he⟩ := ih s2 hlen2 hmem2 false t
          refine ⟨e, ?_⟩
          rw [List.cons_append, parseLoop_cons_star, he]
          rfl
        · have hfc : fieldChar c = true := by
            simp only [fieldChar, Bool.not_eq_true', Bool.or_eq_false_iff, beq_eq_false_iff_ne]
            exact ⟨hdot, hcbr⟩
          have hmem3 : '[' ∉ s2.dropWhile fieldChar :=
            fun hx => hmem2 (mem_of_mem_dropWhile fieldChar s2 '[' hx)
          have hlen3 : (s2.dropWhile fieldChar).length ≤ n := by
            have := length_dropWhile_le fieldChar s2
            omega
          obtain ⟨e, he⟩ := ih (s2.dropWhile fieldChar) hlen3 hmem3 false t
          refine ⟨e, ?_⟩
          rw [List.cons_append, parseLoop_cons_field c _ b hdot hcbr hstar]
          rw [if_neg (by simp [List.takeWhile_cons, hfc])]
          have hdrop : (c :: (s2 ++ '.' :: '.' :: t)).dropWhile fieldChar
              = s2.dropWhile fieldChar ++ '.' :: '.' :: t := by
            rw [List.dropWhile_cons]
            simp only [hfc, if_true]
            exact dropWhile_append_cons_of_neg fieldChar s2 ('.' :: t) '.' (by decide)
          rw [hdrop, he]
          rfl

theorem parseLoop_doubled_dot_all (s : List Char) (hs : '[' ∉ s) (b : Bool) (t : List Char) :
    ∃ e, parseLoop (s ++ '.' :: '.' :: t) b = .error e :=
  parseLoop_doubled_dot s.length s (le_refl _) hs b t

theorem parse_query_doubled_dot (s t : List Char) (hs : '[' ∉ s) :
    ∃ e, _parse_query (s ++ '.' :: '.' :: t) = .error e := by
  have hstrip := pyStrip_dotdot_all s t
  have hmem1 : '[' ∉ s.dropWhile Char.isWhitespace :=
    fun hx => hs (mem_of_mem_dropWhile Char.isWhitespace s '[' hx)
  cases hsplit : s.dropWhile Char.isWhitespace with
  | nil =>
    obtain ⟨e, he⟩ := parseLoop_doubled_dot_all [] (by simp) true
      ((t.reverse.dropWhile Char.isWhitespace).reverse)
    refine ⟨e, ?_⟩
    unfold _parse_query
    rw [hstrip, hsplit, if_neg (by simp), List.nil_append,
      stripRoot_cons_of_ne '.' _ (by decide), if_neg (by simp)]
    exact he
  | cons c s2 =>
    have hmem1c : '[' ∉ c :: s2 := hsplit ▸ hmem1
    have hmem2 : '[' ∉ s2 := fun hx => hmem1c (by simp [hx])
    by_cases hc : c = '$'
    · subst hc
      cases s2 with
      | nil =>
        refine ⟨"Invalid dot placement in query.", ?_⟩
        unfold _parse_query
        rw [hstrip, hsplit, if_neg (by simp), List.cons_append, List.nil_append]
        rw [show stripRoot ('$' :: '.' :: '.' :: (t.reverse.dropWhile Char.isWhitespace).reverse)
            = '.' :: (t.reverse.dropWhile Char.isWhitespace).reverse from rfl]
        rw [if_neg (by simp), parseLoop_cons_dot, if_pos (by simp)]
      | cons d s3 =>
        have hmem3 : '[' ∉ s3 := fun hx => hmem2 (by simp [hx])
        by_cases hd : d = '.'
        · subst hd
          obtain ⟨e, he⟩ := parseLoop_doubled_dot_all s3 hmem3 true
            ((t.reverse.dropWhile Char.isWhitespace).reverse)
          refine ⟨e, ?_⟩
          unfold _parse_query
          rw [hstrip, hsplit, if_neg (by simp), List.cons_append, List.cons_append]
          rw [show ∀ x : List Char, stripRoot ('$' :: '.' :: x) = x from fun x => rfl]
          rw [if_neg (by simp)]
          exact he
        · obtain ⟨e, he⟩ := parseLoop_doubled_dot_all (d :: s3) hmem2 true
            ((t.reverse.dropWhile Char.isWhitespace).reverse)
          refine ⟨e, ?_⟩
          unfold _parse_query
          rw [hstrip, hsplit, if_neg (by simp), List.cons_append, List.cons_append]
          rw [stripRoot_dollar_cons_of_ne d _ hd]
          rw [if_neg (by simp)]
          exact he
    · obtain ⟨e, he⟩ := parseLoop_doubled_dot_all (c :: s2) hmem1c true
        ((t.reverse.dropWhile Char.isWhitespace).reverse)
      refine ⟨e, ?_⟩
      unfold _parse_query
      rw [hstrip, hsplit, if_neg (by simp), List.cons_append]
      rw [stripRoot_cons_of_ne c _ hc]
      rw [if_neg (by simp)]
      exact he

theorem parse_items_bracket (ds : List Char) (hne : ds ≠ [])
    (hds : ∀ c ∈ ds, c.isDigit = true) :
    _parse_query (['i', 't', 'e', 'm', 's', '['] ++ ds ++ [']']) =
      .ok [PathToken.field ['i', 't', 'e', 'm', 's'], PathToken.index (digitsVal ds)] := by
  have hws : ∀ c ∈ ['i', 't', 'e', 'm', 's', '['] ++ ds ++ [']'], c.isWhitespace = false := by
    intro c hc
    simp only [List.append_assoc, List.mem_append] at hc
    rcases hc with hc | hc | hc
    · fin_cases hc <;> decide
    · exact digit_not_ws c (hds c hc)
    · simp at hc; subst hc; decide
  unfold _parse_query
  rw [pyStrip_no_ws _ hws]
  rw [if_neg (by simp)]
  have hsh : (['i', 't', 'e', 'm', 's', '['] ++ ds ++ [']'])
      = 'i' :: (['t', 'e', 'm', 's', '['] ++ ds ++ [']']) := by simp
  rw [hsh, stripRoot_cons_of_ne 'i' _ (by decide), ← hsh]
  rw [if_neg (by simp)]
  have hsplit : (['i', 't', 'e', 'm', 's', '['] ++ ds ++ [']'])
      = ['i', 't', 'e', 'm', 's'] ++ ('[' :: (ds ++ ']' :: [])) := by simp
  rw [hsplit]
  rw [parseLoop_field_seg ['i', 't', 'e', 'm', 's'] ('[' :: (ds ++ ']' :: []))
    (by simp) (by intro x hx; fin_cases hx <;> exact ⟨by decide, by decide⟩)
    (by intro x hx; simp at hx; subst hx; decide) true]
  rw [parseLoop_bracket (ds ++ ']' :: []) [] (PathToken.index (digitsVal ds))
    (parseBracket_digits ds [] hne hds) false]
  rw [show parseLoop [] false = .ok [] from by simp [parseLoop]]
  rfl

theorem resolveStep_singleton (n : Json) (t : PathToken) :
    resolveStep [n] t = _resolve_token n t := by
  simp [resolveStep]

theorem resolveStep_field (k : List Char) (l : List Json) :
    resolveStep l (.field k) = idValues k l := by
  induction l with
  | nil => rfl
  | cons e rest ih =>
    rw [resolveStep, ih]
    cases e <;> rfl

theorem idValues_length (k : List Char) (l : List Json) :
    (idValues k l).length = l.countP (hasKeyObj k) := by
  induction l with
  | nil => rfl
  | cons e rest ih =>
    cases e with
    | obj fields =>
      cases hlk : lookupField k fields with
      | some v => simp [idValues, List.countP_cons, hasKeyObj, hlk, ih]
      | none => simp [idValues, List.countP_cons, hasKeyObj, hlk, ih]
    | null => simp [idValues, List.countP_cons, hasKeyObj, ih]
    | bool b => simp [idValues, List.countP_cons, hasKeyObj, ih]
    | num n => simp [idValues, List.countP_cons, hasKeyObj, ih]
    | str s => simp [idValues, List.countP_cons, hasKeyObj, ih]
    | arr elems => simp [idValues, List.countP_cons, hasKeyObj, ih]

theorem resolveAllFull_nil_frontier (ts : List PathToken) : resolveAllFull [] ts = [] := by
  induction ts with
  | nil => rfl
  | cons t ts ih => rw [resolveAllFull, resolveStep, ih]

/-- Claim C9: short-circuit equivalence - the resolver that stops as soon
as the frontier becomes empty (`resolveAll`, as in the source) returns
exactly the same result as the resolver that evaluates every remaining
token against the empty frontier (`resolveAllFull`). -/
theorem resolveAll_eq_resolveAllFull (nodes : List Json) (ts : List PathToken) :
    resolveAll nodes ts = resolveAllFull nodes ts := by
  induction ts generalizing nodes with
  | nil => rfl
  | cons t ts ih =>
    rw [resolveAll, resolveAllFull]
    cases hstep : resolveStep nodes t with
    | nil => exact (resolveAllFull_nil_frontier ts).symm
    | cons m rest => exact ih (m :: rest)

theorem resolveAll_single_noWildNeg (ts : List PathToken) :
    ∀ d : Json, (∀ t ∈ ts, noWildNegTok t = true) →
      (resolveAll [d] ts).length ≤ 1 ∧
        ∀ v, resolveAll [d] ts = [v] → directLookup d ts = some v := by
  induction ts with
  | nil =>
    intro d _
    refine ⟨by simp [resolveAll], ?_⟩
    intro v hv
    rw [resolveAll] at hv
    simp only [List.cons.injEq, and_true] at hv
    rw [directLookup, hv]
  | cons t ts ih =>
    intro d h
    have htok := h t (by simp)
    have hts : ∀ x ∈ ts, noWildNegTok x = true := fun x hx => h x (by simp [hx])
    cases t with
    | wildcard => simp [noWildNegTok] at htok
    | field name =>
      cases d with
      | obj fields =>
        cases hlk : lookupField name fields with
        | some v =>
          have hstep : resolveStep [Json.obj fields] (PathToken.field name) = [v] := by
            rw [resolveStep, resolveStep, _resolve_token, hlk]
            rfl
          rw [resolveAll, hstep]
          refine ⟨(ih v hts).1, ?_⟩
          intro w hw
          rw [directLookup, hlk]
          exact (ih v hts).2 w hw
        | none =>
          have hstep : resolveStep [Json.obj fields] (PathToken.field name) = [] := by
            rw [resolveStep, resolveStep, _resolve_token, hlk]
            rfl
          rw [resolveAll, hstep]
          exact ⟨by simp, fun v hv => absurd hv (by simp)⟩
      | null =>
        rw [resolveAll, show resolveStep [Json.null] (PathToken.field name) = [] from rfl]
        exact ⟨by simp, fun v hv => absurd hv (by simp)⟩
      | bool b =>
        rw [resolveAll, show resolveStep [Json.bool b] (PathToken.field name) = [] from rfl]
        exact ⟨by simp, fun v hv => absurd hv (by simp)⟩
      | num n =>
        rw [resolveAll, show resolveStep [Json.num n] (PathToken.field name) = [] from rfl]
        exact ⟨by simp, fun v hv => absurd hv (by simp)⟩
      | str s =>
        rw [resolveAll, show resolveStep [Json.str s] (PathToken.field name) = [] from rfl]
        exact ⟨by simp, fun v hv => absurd hv (by simp)⟩
      | arr elems =>
        rw [resolveAll, show resolveStep [Json.arr elems] (PathToken.field name) = [] from rfl]
        exact ⟨by simp, fun v hv => absurd hv (by simp)⟩
    | index i =>
      have hge : (0 : Int) ≤ i := by
        simpa [noWildNegTok] using htok
      cases d with
      | arr elems =>
        have hidx : (if i < 0 then i + (elems.length : Int) else i) = i := by
          rw [if_neg (by omega)]
        by_cases hb : 0 ≤ i ∧ i < (elems.length : Int)
        · have hstep : resolveStep [Json.arr elems] (PathToken.index i)
              = [elems.get ⟨i.toNat, by omega⟩] := by
            rw [resolveStep, resolveStep, _resolve_token]
            simp only [hidx, List.nil_append, List.append_nil]
            rw [dif_pos hb]
          rw [resolveAll, hstep]
          refine ⟨(ih _ hts).1, ?_⟩
          intro w hw
          rw [directLookup, dif_pos hb]
          exact (ih _ hts).2 w hw
        · have hstep : resolveStep [Json.arr elems] (PathToken.index i) = [] := by
            rw [resolveStep, resolveStep, _resolve_token]
            simp only [hidx, List.nil_append, List.append_nil]
            rw [dif_neg hb]
          rw [resolveAll, hstep]
          exact ⟨by simp, fun v hv => absurd hv (by simp)⟩
      | null =>
        rw [resolveAll, show resolveStep [Json.null] (PathToken.index i) = [] from rfl]
        exact ⟨by simp, fun v hv => absurd hv (by simp)⟩
      | bool b =>
        rw [resolveAll, show resolveStep [Json.bool b] (PathToken.index i) = [] from rfl]
        exact ⟨by simp, fun v hv => absurd hv (by simp)⟩
      | num n =>
        rw [resolveAll, show resolveStep [Json.num n] (PathToken.index i) = [] from rfl]
        exact ⟨by simp, fun v hv => absurd hv (by simp)⟩
      | str s =>
        rw [resolveAll, show resolveStep [Json.str s] (PathToken.index i) = [] from rfl]
        exact ⟨by simp, fun v hv => absurd hv (by simp)⟩
      | obj fields =>
        rw [resolveAll, show resolveStep [Json.obj fields] (PathToken.index i) = [] from rfl]
        exact ⟨by simp, fun v hv => absurd hv (by simp)⟩

theorem lookupEntry_setEntry_same (out : List (List Char × ExtractValue)) (k : List Char)
    (v : ExtractValue) : lookupEntry k (setEntry out k v) = some v := by
  induction out with
  | nil => simp [setEntry, lookupEntry]
  | cons p rest ih =>
    obtain ⟨k2, w⟩ := p
    by_cases hk : k2 = k
    · subst hk
      simp [setEntry, lookupEntry]
    · simp [setEntry, lookupEntry, hk, ih]

theorem lookupEntry_setEntry_other (out : List (List Char × ExtractValue)) (k k2 : List Char)
    (v : ExtractValue) (hne : ¬k2 = k) :
    lookupEntry k (setEntry out k2 v) = lookupEntry k out := by
  induction out with
  | nil => simp [setEntry, lookupEntry, hne]
  | cons p rest ih =>
    obtain ⟨k3, w⟩ := p
    by_cases hk : k3 = k2
    · subst hk
      simp [setEntry, lookupEntry, hne]
    · simp [setEntry, lookupEntry, hk, ih]

theorem extractPathsGo_preserve (d : Json) (first : Bool) :
    ∀ (qs : List (List Char)) (out0 out : List (List Char × ExtractValue)),
      extractPathsGo d first out0 qs = .ok out →
      ∀ (k : List Char) (ms : List Json), extract_json_path d k = .ok ms →
        lookupEntry k out0 = some (entryValue first ms) →
        lookupEntry k out = some (entryValue first ms) := by
  intro qs
  induction qs with
  | nil =>
    intro out0 out h k ms hk hl
    rw [extractPathsGo] at h
    simp only [Except.ok.injEq] at h
    rw [← h]
    exact hl
  | cons q qs ih =>
    intro out0 out h k ms hk hl
    rw [extractPathsGo] at h
    cases hq : extract_json_path d q with
    | error e =>
      rw [hq] at h
      exact Except.noConfusion h
    | ok ms0 =>
      rw [hq] at h
      by_cases hkq : q = k
      · subst hkq
        have hms : ms0 = ms := by
          rw [hq] at hk
          simp only [Except.ok.injEq] at hk
          exact hk
        subst hms
        exact ih _ _ h q ms0 hq (by rw [lookupEntry_setEntry_same])
      · exact ih _ _ h k ms hk (by rw [lookupEntry_setEntry_other _ _ _ _ hkq]; exact hl)

theorem extractPathsGo_mem (d : Json) (first : Bool) :
    ∀ (qs : List (List Char)) (out0 out : List (List Char × ExtractValue)),
      extractPathsGo d first out0 qs = .ok out →
      ∀ q ∈ qs, ∃ ms, extract_json_path d q = .ok ms ∧
        lookupEntry q out = some (entryValue first ms) := by
  intro qs
  induction qs with
  | nil =>
    intro out0 out h q hq
    simp at hq
  | cons q0 qs ih =>
    intro out0 out h q hq
    rw [extractPathsGo] at h
    cases hq0 : extract_json_path d q0 with
    | error e =>
      rw [hq0] at h
      exact Except.noConfusion h
    | ok ms0 =>
      rw [hq0] at h
      rcases List.mem_cons.mp hq with rfl | hmem
      · exact ⟨ms0, hq0,
          extractPathsGo_preserve d first qs _ out h q ms0 hq0 (by rw [lookupEntry_setEntry_same])⟩
      · exact ih _ _ h q hmem

/-- Claim C1: for every document and every query string on which
tokenization succeeds, `extract_json_path` returns an `ok` list of matches
(the resolver's frontier, possibly empty) and never an error; absence of a
matching node yields the empty list, not an error. -/
theorem extract_total_on_tokenized (d : Json) (q : List Char) (ts : List PathToken)
    (h : _parse_query q = .ok ts) :
    extract_json_path d q = .ok (resolveAll [d] ts) := by
  rw [extract_json_path, h]
  rfl

/-- Witness for C1 at query "a.b" on a document where the path is absent:
the result is the `ok` empty list. -/
theorem extract_total_on_tokenized_witness :
    extract_json_path (Json.obj []) ['a', '.', 'b']
      = .ok (resolveAll [Json.obj []] [PathToken.field ['a'], PathToken.field ['b']]) :=
  extract_total_on_tokenized (Json.obj []) ['a', '.', 'b']
    [PathToken.field ['a'], PathToken.field ['b']]
    (by simp [_parse_query, pyStrip, stripRoot, parseLoop, fieldChar, Except.map])

/-- Claim C2: for a query whose token sequence has no wildcard and no
negative index, extraction returns at most one value, and a unique result
equals direct structural lookup along the same path. -/
theorem extract_noWildNeg_at_most_one (d : Json) (q : List Char) (ts : List PathToken)
    (hp : _parse_query q = .ok ts) (hn : ∀ t ∈ ts, noWildNegTok t = true) :
    ∃ ms, extract_json_path d q = .ok ms ∧ ms.length ≤ 1 ∧
      ∀ v, ms = [v] → directLookup d ts = some v := by
  refine ⟨resolveAll [d] ts, ?_, ?_, ?_⟩
  · rw [extract_json_path, hp]
    rfl
  · exact (resolveAll_single_noWildNeg ts d hn).1
  · exact (resolveAll_single_noWildNeg ts d hn).2

/-- Witness for C2 at query "a[0]" on a document whose field a is a
one-element array. -/
theorem extract_noWildNeg_witness :
    ∃ ms, extract_json_path (Json.obj [(['a'], Json.arr [Json.num 7])]) ['a', '[', '0', ']']
        = .ok ms ∧ ms.length ≤ 1 ∧
      ∀ v, ms = [v] →
        directLookup (Json.obj [(['a'], Json.arr [Json.num 7])])
          [PathToken.field ['a'], PathToken.index 0] = some v :=
  extract_noWildNeg_at_most_one (Json.obj [(['a'], Json.arr [Json.num 7])]) ['a', '[', '0', ']']
    [PathToken.field ['a'], PathToken.index 0]
    (by simp [_parse_query, pyStrip, stripRoot, parseLoop_cons_field, parseLoop_cons_bracket,
      parseLoop_nil, parseBracket, parseIndexBody, fieldChar, digitsVal, List.takeWhile,
      List.dropWhile, List.foldl, Except.map])
    (by intro t ht; fin_cases ht <;> simp [noWildNegTok])

/-- Counterexample to C3 as stated: the queries consisting only of the root
marker do not raise - they tokenize successfully to the empty token
sequence. -/
theorem root_only_tokenizes_counterexample :
    _parse_query ['$'] = .ok [] ∧ _parse_query ['$', '.'] = .ok [] := by
  constructor <;> simp [_parse_query, pyStrip, stripRoot]

/-- Claim C3 (amended): tokenization fails with the syntax error exactly on
the empty (or whitespace-only) query string, while "$" and "$." tokenize
successfully to the empty token sequence. -/
theorem tokenize_empty_fails_root_identity :
    (∀ q : List Char, pyStrip q = [] → _parse_query q = .error "Query cannot be empty.") ∧
      _parse_query ['$'] = .ok [] ∧ _parse_query ['$', '.'] = .ok [] := by
  refine ⟨?_, ?_, ?_⟩
  · intro q hq
    simp [_parse_query, hq]
  · simp [_parse_query, pyStrip, stripRoot]
  · simp [_parse_query, pyStrip, stripRoot]

/-- Witness for C3 (amended) at the empty query string. -/
theorem tokenize_empty_fails_witness :
    _parse_query [] = .error "Query cannot be empty." :=
  tokenize_empty_fails_root_identity.1 [] rfl

/-- Claim C4: the root marker alone is the identity query: extraction with
"$" or "$." returns the singleton list holding the whole document. -/
theorem root_marker_identity (d : Json) :
    extract_json_path d ['$'] = .ok [d] ∧ extract_json_path d ['$', '.'] = .ok [d] := by
  constructor <;>
    simp [extract_json_path, _parse_query, pyStrip, stripRoot, resolveAll, Except.map]

/-- Counterexample to C5 as stated: the query "a.[0]", in which a dot is
immediately followed by an opening bracket, does not raise - it tokenizes
to the field a followed by index 0. -/
theorem dot_bracket_accepted_counterexample :
    _parse_query ['a', '.', '[', '0', ']'] = .ok [PathToken.field ['a'], PathToken.index 0] := by
  simp [_parse_query, pyStrip, stripRoot, parseLoop_cons_field, parseLoop_cons_dot,
    parseLoop_cons_bracket, parseLoop_nil, parseBracket, parseIndexBody, fieldChar,
    digitsVal, List.takeWhile, List.dropWhile, List.foldl, Except.map]

/-- Claim C5 (amended): tokenization fails whenever a '.' separator is
doubled - for every query string of the form s ++ ".." ++ t in which no
'[' occurs before the doubled dot (so the two dots are separators, not
bracket content), tokenize raises the syntax error; but a '.' immediately
followed by '[' is accepted: "a.[0]" tokenizes as field a then index 0. -/
theorem doubled_dot_fails (s t : List Char) (hs : '[' ∉ s) :
    (∃ e, _parse_query (s ++ '.' :: '.' :: t) = .error e) ∧
      _parse_query ['a', '.', '[', '0', ']'] = .ok [PathToken.field ['a'], PathToken.index 0] :=
  ⟨parse_query_doubled_dot s t hs,
    by simp [_parse_query, pyStrip, stripRoot, parseLoop_cons_field, parseLoop_cons_dot,
      parseLoop_cons_bracket, parseLoop_nil, parseBracket, parseIndexBody, fieldChar,
      digitsVal, List.takeWhile, List.dropWhile, List.foldl, Except.map]⟩

/-- Witness for C5 (amended) at the queries "a.b..c" and "a.[0]". -/
theorem doubled_dot_fails_witness :
    (∃ e, _parse_query (['a', '.', 'b'] ++ '.' :: '.' :: ['c']) = .error e) ∧
      _parse_query ['a', '.', '[', '0', ']'] = .ok [PathToken.field ['a'], PathToken.index 0] :=
  doubled_dot_fails ['a', '.', 'b'] ['c'] (by decide)

theorem resolve_index_arr_of_inbounds (l : List Json) (i : Int) (k : Nat) (hk : k < l.length)
    (hidx : (if i < 0 then i + (l.length : Int) else i) = k) :
    _resolve_token (Json.arr l) (PathToken.index i) = [l.get ⟨k, hk⟩] := by
  simp only [_resolve_token]
  simp only [hidx]
  rw [dif_pos ⟨by omega, by omega⟩]
  simp

theorem resolveAll_items_index (fields : List (List Char × Json)) (l : List Json)
    (hlk : lookupField ['i', 't', 'e', 'm', 's'] fields = some (Json.arr l))
    (i : Int) (k : Nat) (hk : k < l.length)
    (hidx : (if i < 0 then i + (l.length : Int) else i) = k) :
    resolveAll [Json.obj fields] [PathToken.field ['i', 't', 'e', 'm', 's'], PathToken.index i]
      = [l.get ⟨k, hk⟩] := by
  have hstep : resolveStep [Json.obj fields] (PathToken.field ['i', 't', 'e', 'm', 's'])
      = [Json.arr l] := by
    rw [resolveStep_singleton]
    simp [_resolve_token, hlk]
  rw [resolveAll, hstep]
  show resolveAll [Json.arr l] [PathToken.index i] = [l.get ⟨k, hk⟩]
  have hstep2 : resolveStep [Json.arr l] (PathToken.index i) = [l.get ⟨k, hk⟩] := by
    rw [resolveStep_singleton, resolve_index_arr_of_inbounds l i k hk hidx]
  rw [resolveAll, hstep2]
  rfl

/-- Claim C6: negative-index equivalence - on a document whose field
"items" is a non-empty array of length N, extraction with "items[-1]"
equals extraction with the literal index N-1 (any digit string of value
N-1); and in general a negative index selects the element at position
i + length when in bounds and contributes nothing otherwise. -/
theorem negative_index_equivalence (fields : List (List Char × Json)) (l : List Json)
    (ds : List Char)
    (hlk : lookupField ['i', 't', 'e', 'm', 's'] fields = some (Json.arr l))
    (hne : l ≠ []) (hdsne : ds ≠ []) (hdig : ∀ c ∈ ds, c.isDigit = true)
    (hval : digitsVal ds + 1 = l.length) :
    extract_json_path (Json.obj fields) ['i', 't', 'e', 'm', 's', '[', '-', '1', ']']
        = extract_json_path (Json.obj fields) (['i', 't', 'e', 'm', 's', '['] ++ ds ++ [']']) ∧
      ∀ (elems : List Json) (i : Int), i < 0 →
        _resolve_token (Json.arr elems) (PathToken.index i)
          = if 0 ≤ i + (elems.length : Int)
            then (elems.get? (i + (elems.length : Int)).toNat).toList
            else [] := by
  constructor
  · have hN : 1 ≤ l.length := by
      cases l with
      | nil => exact absurd rfl hne
      | cons m rest => simp
    have hp1 : _parse_query ['i', 't', 'e', 'm', 's', '[', '-', '1', ']']
        = .ok [PathToken.field ['i', 't', 'e', 'm', 's'], PathToken.index (-1)] := by
      simp [_parse_query, pyStrip, stripRoot, parseLoop_cons_field, parseLoop_cons_bracket,
        parseLoop_nil, parseBracket, parseIndexBody, fieldChar, digitsVal, List.takeWhile,
        List.dropWhile, List.foldl, Except.map]
    have hp2 := parse_items_bracket ds hdsne hdig
    rw [extract_json_path, extract_json_path, hp1, hp2]
    show Except.ok (resolveAll _ _) = Except.ok (resolveAll _ _)
    rw [resolveAll_items_index fields l hlk (-1) (l.length - 1) (by omega)
        (by rw [if_pos (by decide)]; omega),
      resolveAll_items_index fields l hlk (digitsVal ds) (l.length - 1) (by omega)
        (by rw [if_neg (by omega)]; omega)]
  · intro elems i hi
    simp only [_resolve_token, if_pos hi]
    by_cases hb : 0 ≤ i + (elems.length : Int)
    · rw [if_pos hb, dif_pos ⟨hb, by omega⟩]
      rw [List.get?_eq_get (by omega : (i + (elems.length : Int)).toNat < elems.length)]
      rfl
    · rw [if_neg hb, dif_neg (fun hcon => hb hcon.1)]

/-- Witness for C6 on the two-element array [1, 2] with the digit string
"1" for the literal index N-1. -/
theorem negative_index_equivalence_witness :
    extract_json_path (Json.obj [(['i', 't', 'e', 'm', 's'], Json.arr [Json.num 1, Json.num 2])])
        ['i', 't', 'e', 'm', 's', '[', '-', '1', ']']
      = extract_json_path
          (Json.obj [(['i', 't', 'e', 'm', 's'], Json.arr [Json.num 1, Json.num 2])])
          (['i', 't', 'e', 'm', 's', '['] ++ ['1'] ++ [']']) ∧
      ∀ (elems : List Json) (i : Int), i < 0 →
        _resolve_token (Json.arr elems) (PathToken.index i)
          = if 0 ≤ i + (elems.length : Int)
            then (elems.get? (i + (elems.length : Int)).toNat).toList
            else [] :=
  negative_index_equivalence [(['i', 't', 'e', 'm', 's'], Json.arr [Json.num 1, Json.num 2])]
    [Json.num 1, Json.num 2] ['1'] (by simp [lookupField]) (by simp) (by simp)
    (by decide) (by decide)

/-- Claim C7: wildcard fan-out - on a document whose field "items" is an
array, extraction with "items[*].id" returns exactly the "id" values of
those elements that are objects containing key "id", in array order, and
its length equals the count of such elements. -/
theorem wildcard_fanout (fields : List (List Char × Json)) (l : List Json)
    (hlk : lookupField ['i', 't', 'e', 'm', 's'] fields = some (Json.arr l)) :
    extract_json_path (Json.obj fields) ['i', 't', 'e', 'm', 's', '[', '*', ']', '.', 'i', 'd']
        = .ok (idValues ['i', 'd'] l) ∧
      (idValues ['i', 'd'] l).length = l.countP (hasKeyObj ['i', 'd']) := by
  constructor
  · have hp : _parse_query ['i', 't', 'e', 'm', 's', '[', '*', ']', '.', 'i', 'd']
        = .ok [PathToken.field ['i', 't', 'e', 'm', 's'], PathToken.wildcard,
            PathToken.field ['i', 'd']] := by
      simp [_parse_query, pyStrip, stripRoot, parseLoop_cons_field, parseLoop_cons_bracket,
        parseLoop_cons_dot, parseLoop_nil, parseBracket, parseIndexBody, fieldChar, digitsVal,
        List.takeWhile, List.dropWhile, List.foldl, Except.map]
    rw [extract_json_path, hp]
    show Except.ok (resolveAll _ _) = _
    have hstep : resolveStep [Json.obj fields] (PathToken.field ['i', 't', 'e', 'm', 's'])
        = [Json.arr l] := by
      rw [resolveStep_singleton]
      simp [_resolve_token, hlk]
    rw [resolveAll, hstep]
    show Except.ok (resolveAll [Json.arr l] [PathToken.wildcard, PathToken.field ['i', 'd']]) = _
    have hstep2 : resolveStep [Json.arr l] PathToken.wildcard = l := by
      rw [resolveStep_singleton]
      rfl
    rw [resolveAll, hstep2]
    cases l with
    | nil => rfl
    | cons m rest =>
      show Except.ok (resolveAll (m :: rest) [PathToken.field ['i', 'd']]) = _
      rw [resolveAll, resolveStep_field]
      cases hiv : idValues ['i', 'd'] (m :: rest) with
      | nil => rfl
      | cons x xs => rfl
  · exact idValues_length _ _

/-- Witness for C7 on an array with one matching object, one scalar and one
object lacking the key. -/
theorem wildcard_fanout_witness :
    extract_json_path
        (Json.obj [(['i', 't', 'e', 'm', 's'],
          Json.arr [Json.obj [(['i', 'd'], Json.num 1)], Json.num 5, Json.obj []])])
        ['i', 't', 'e', 'm', 's', '[', '*', ']', '.', 'i', 'd']
      = .ok (idValues ['i', 'd']
          [Json.obj [(['i', 'd'], Json.num 1)], Json.num 5, Json.obj []]) ∧
      (idValues ['i', 'd'] [Json.obj [(['i', 'd'], Json.num 1)], Json.num 5, Json.obj []]).length
        = List.countP (hasKeyObj ['i', 'd'])
            [Json.obj [(['i', 'd'], Json.num 1)], Json.num 5, Json.obj []] :=
  wildcard_fanout
    [(['i', 't', 'e', 'm', 's'],
      Json.arr [Json.obj [(['i', 'd'], Json.num 1)], Json.num 5, Json.obj []])]
    [Json.obj [(['i', 'd'], Json.num 1)], Json.num 5, Json.obj []]
    (by simp [lookupField])

/-- Claim C8: the batch API maps each query string, in first-match mode, to
its first matched value or `Json.null` (the absent marker) when there are
zero matches, and in all-matches mode to the full ordered match list,
empty when there are none. -/
theorem extract_many_first_or_all (d : Json) (qs : List (List Char)) (first : Bool)
    (out : List (List Char × ExtractValue)) (h : extract_json_paths d qs first = .ok out) :
    ∀ q ∈ qs, ∃ ms, extract_json_path d q = .ok ms ∧
      lookupEntry q out = some (if first then
          (match ms with
           | [] => ExtractValue.single Json.null
           | m :: _ => ExtractValue.single m)
        else ExtractValue.many ms) := by
  intro q hq
  obtain ⟨ms, hms, hl⟩ := extractPathsGo_mem d first qs [] out h q hq
  exact ⟨ms, hms, by rw [hl]; rfl⟩

/-- Witness for C8 in first-match mode with one matching and one
non-matching query, read off at the matching query a. -/
theorem extract_many_first_or_all_witness :
    ∃ ms, extract_json_path (Json.obj [(['a'], Json.num 3)]) ['a'] = .ok ms ∧
      lookupEntry ['a'] [(['a'], ExtractValue.single (Json.num 3)),
          (['b'], ExtractValue.single Json.null)]
        = some (if true then
            (match ms with
             | [] => ExtractValue.single Json.null
             | m :: _ => ExtractValue.single m)
          else ExtractValue.many ms) :=
  extract_many_first_or_all (Json.obj [(['a'], Json.num 3)]) [['a'], ['b']] true
    [(['a'], ExtractValue.single (Json.num 3)), (['b'], ExtractValue.single Json.null)]
    (by simp [extract_json_paths, extractPathsGo, extract_json_path, _parse_query, pyStrip,
      stripRoot, parseLoop_cons_field, parseLoop_nil, fieldChar, List.takeWhile,
      List.dropWhile, Except.map, resolveAll, resolveStep, _resolve_token, lookupField,
      setEntry, entryValue])
    ['a'] (by simp)

/-- Claim C10: in first-match mode the absent marker coincides with JSON
null - a query whose first match is `Json.null` produces exactly the same
mapping entry as a query with zero matches, so the two cases cannot be
distinguished through the batch API. -/
theorem first_match_null_indistinguishable (d : Json) (q1 q2 : List Char) (ms1 : List Json)
    (h1 : extract_json_path d q1 = .ok (Json.null :: ms1))
    (h2 : extract_json_path d q2 = .ok []) :
    extract_json_paths d [q1] true = .ok [(q1, ExtractValue.single Json.null)] ∧
      extract_json_paths d [q2] true = .ok [(q2, ExtractValue.single Json.null)] := by
  constructor
  · simp [extract_json_paths, extractPathsGo, h1, entryValue, setEntry]
  · simp [extract_json_paths, extractPathsGo, h2, entryValue, setEntry]

/-- Witness for C10: field a holds null (first match is null), field b is
absent (zero matches); both batch entries are the same `Json.null`. -/
theorem first_match_null_indistinguishable_witness :
    extract_json_paths (Json.obj [(['a'], Json.null)]) [['a']] true
        = .ok [(['a'], ExtractValue.single Json.null)] ∧
      extract_json_paths (Json.obj [(['a'], Json.null)]) [['b']] true
        = .ok [(['b'], ExtractValue.single Json.null)] :=
  first_match_null_indistinguishable (Json.obj [(['a'], Json.null)]) ['a'] ['b'] []
    (by simp [extract_json_path, _parse_query, pyStrip, stripRoot, parseLoop_cons_field,
      parseLoop_nil, fieldChar, List.takeWhile, List.dropWhile, Except.map, resolveAll,
      resolveStep, _resolve_token, lookupField])
    (by simp [extract_json_path, _parse_query, pyStrip, stripRoot, parseLoop_cons_field,
      parseLoop_nil, fieldChar, List.takeWhile, List.dropWhile, Except.map, resolveAll,
      resolveStep, _resolve_token, lookupField])

end JsonExtractor
